import Mathlib

/-!
Verification of the green-ndarray strided-array / reference-counted-storage
library.  The definitions below are a shallow embedding of the C++ sources:

* `size_for_shape`, `strides_for_shape`, `compute_offset` (as `dotProd`),
  `get_shape` and the array constructors come from `ndarray.h`
  (the `storage_t` based variant, `src/unnamed/part_000`);
* `storage_t` and its reference counting come from
  `src/src/green/ndarray/storage.h`;
* `transpose_impl` and `transpose` come from `ndarray_math.h`.

Machine integers (`size_t`) are modelled as `Nat`; none of the modelled
computations can overflow on the inputs considered, and all quantities
involved (sizes, strides, offsets, counts) are non-negative in the source.
Array elements are modelled as `Int` cells; a `std::complex` element is a
pair of adjacent cells, matching the memory layout the code relies on in
`view`.  Shared storage is modelled by an explicit heap: a list of blocks,
each block a list of cells; an array holds the index of its block.
-/

namespace GreenNdarray

/-- Heap of storage blocks.  Each `storage_t` allocation is one block. -/
abbrev Heap := List (List Int)

/-- `ndarray::size_for_shape`: `std::accumulate(shape.begin(), shape.end(),
1ul, std::multiplies<size_t>())` — a left fold starting from 1. -/
def size_for_shape (shape : List Nat) : Nat := shape.foldl (· * ·) 1

/-- `ndarray::strides_for_shape`: `str[shape.size()-1] = 1;` then
`str[k] = str[k+1] * shape[k+1]` for `k` from `shape.size()-2` down to 0. -/
def strides_for_shape : List Nat → List Nat
  | [] => []
  | [_] => [1]
  | _ :: b :: tl => ((strides_for_shape (b :: tl)).headD 1 * b) :: strides_for_shape (b :: tl)

/-- Inner product of an index tuple with a stride vector, truncated at the
shorter list: this is both `ndarray::compute_offset`
(`std::inner_product(inds.begin(), inds.end(), strides.begin(), 0ul)`) and
`ndarray::get_index` (`transform` by `multiplies` then `accumulate` by
`plus`), each of which iterates over the index tuple. -/
def dotProd (xs ys : List Nat) : Nat := (List.zipWith (· * ·) xs ys).sum

/-- The strided-array metadata of `ndarray<T, Dim>`: shape, strides, total
size, element offset, and the heap index of the storage block the
`storage_t` member refers to. -/
structure ndarr where
  shape_ : List Nat
  strides_ : List Nat
  size_ : Nat
  offset_ : Nat
  blk_ : Nat
deriving Repr, DecidableEq

/-- `ndarray::ndarray(const std::array<size_t, Dim>& shape)`: computes the
canonical strides and size, allocates a fresh zero-initialized block
(`storage_(sizeof(T) * size_)` followed by `set_value(0.0)`). -/
def make (h : Heap) (s : List Nat) : Heap × ndarr :=
  (h ++ [List.replicate (size_for_shape s) 0],
   { shape_ := s, strides_ := strides_for_shape s, size_ := size_for_shape s,
     offset_ := 0, blk_ := h.length })

/-- Element read at a full index tuple:
`storage_.get<T>()[offset_ + get_index(inds...)]`. -/
def readIdx (h : Heap) (A : ndarr) (idx : List Nat) : Int :=
  (h.getD A.blk_ []).getD (A.offset_ + dotProd idx A.strides_) 0

/-- Element write at a full index tuple through `ref(inds...)`. -/
def writeIdx (h : Heap) (A : ndarr) (idx : List Nat) (v : Int) : Heap :=
  h.set A.blk_ ((h.getD A.blk_ []).set (A.offset_ + dotProd idx A.strides_) v)

/-- Read of the element at flattened position `p` (the `p`-th element of the
flat range `begin() .. end()`). -/
def readFlat (h : Heap) (A : ndarr) (p : Nat) : Int :=
  (h.getD A.blk_ []).getD (A.offset_ + p) 0

/-- `ndarray::ndarray(const ndarray<T2, Dim2>& ref, std::array<size_t, D>&& inds)`,
the slicing constructor: trailing shape (`get_shape(ref.shape(), inds)`
copies `old_shape[D..]`), strides recomputed from the sliced shape, offset
`ref.offset() + compute_offset(ref.strides(), inds)`, shared storage. -/
def slice (A : ndarr) (inds : List Nat) : ndarr :=
  { shape_ := A.shape_.drop inds.length,
    strides_ := strides_for_shape (A.shape_.drop inds.length),
    size_ := size_for_shape (A.shape_.drop inds.length),
    offset_ := A.offset_ + dotProd inds A.strides_,
    blk_ := A.blk_ }

/-- Validity of an index tuple for a shape: same length and every index
below its extent. -/
def validIdx (c s : List Nat) : Prop :=
  c.length = s.length ∧ ∀ i, i < s.length → c.getD i 0 < s.getD i 0

instance (c s : List Nat) : Decidable (validIdx c s) := by
  unfold validIdx; infer_instance

/-- The error conditions raised by the modelled operations (all thrown as
exceptions in the source). -/
inductive RErr where
  | shapeError
  | logicError
  | reinterpretError
deriving Repr, DecidableEq

/-- `ndarray::reshape(new_shape)`: checks (debug build) that the new shape
has the same element count, builds the cross-rank copy and calls
`inplace_reshape`, which throws `std::logic_error` when `offset_ != 0` and
otherwise installs the new shape with recomputed strides.  The size is the
one copied from the source array. -/
def reshape (A : ndarr) (ns : List Nat) : Except RErr ndarr :=
  if size_for_shape ns ≠ A.size_ then .error .shapeError
  else if A.offset_ ≠ 0 then .error .logicError
  else .ok { shape_ := ns, strides_ := strides_for_shape ns, size_ := A.size_,
             offset_ := A.offset_, blk_ := A.blk_ }

/-- The cross-rank conversion constructor
`ndarray(const ndarray<T2, Dim2>& rhs)` (part_000 lines 145-147):
`shape_()` and `strides_()` value-initialize to all zeros while the size
and offset are copied from the source; storage is shared. -/
def rankChangeCtor (A : ndarr) (newDim : Nat) : ndarr :=
  { shape_ := List.replicate newDim 0, strides_ := List.replicate newDim 0,
    size_ := A.size_, offset_ := A.offset_, blk_ := A.blk_ }

/-- The default constructor (part_000 lines 41-44): shape and strides
filled with zeros, size 0, offset 0; the null `storage_t` handle is
modelled by block index 0 (never dereferenced). -/
def defaultCtor (dim : Nat) : ndarr :=
  { shape_ := List.replicate dim 0, strides_ := List.replicate dim 0,
    size_ := 0, offset_ := 0, blk_ := 0 }

/-- `ndarray::copy()`: `ndarray ret(shape_)` allocates a fresh zero block of
`size_for_shape shape_` cells, then `std::copy(begin(), end(), ret.begin())`
overwrites its first `size_` cells with the source window
`[offset_, offset_ + size_)`. -/
def copyArr (h : Heap) (A : ndarr) : Heap × ndarr :=
  (h ++ [(List.range (size_for_shape A.shape_)).map
      (fun j => if j < A.size_ then (h.getD A.blk_ []).getD (A.offset_ + j) 0 else 0)],
   { shape_ := A.shape_, strides_ := strides_for_shape A.shape_,
     size_ := size_for_shape A.shape_, offset_ := 0, blk_ := h.length })

/-- `ndarray::ndarray(T* data, const shape_type& shape)` (part_000 lines
94-99): wraps a caller-supplied buffer (an optional existing heap block)
without allocating; when the pointer is non-null, `set_value(0.0)` zeroes
the cells `[0, size_)` of the buffer; when it is null, nothing is written. -/
def fromPtr (h : Heap) (data : Option Nat) (s : List Nat) : Heap × ndarr :=
  let A : ndarr := { shape_ := s, strides_ := strides_for_shape s,
                     size_ := size_for_shape s, offset_ := 0, blk_ := data.getD 0 }
  match data with
  | some b => (h.set b (List.replicate (size_for_shape s) (0 : Int) ++ (h.getD b []).drop (size_for_shape s)), A)
  | none => (h, A)

/-- `ndarray::view<T2>()` for a real element `T` (one cell) reinterpreted as
complex `T2` (two cells): `sizeof(T) < sizeof(T2)` holds, so the code
rejects a last-axis extent or an offset not divisible by the size ratio 2;
otherwise the last extent becomes `shape[Dim-1] * sizeof(T) / sizeof(T2)`
and the offset `offset * sizeof(T) / sizeof(T2)`; strides are recomputed
from the new shape and the storage is shared. -/
def viewComplex (A : ndarr) : Except RErr ndarr :=
  if A.shape_.getD (A.shape_.length - 1) 0 % 2 ≠ 0 then .error .reinterpretError
  else if A.offset_ % 2 ≠ 0 then .error .reinterpretError
  else
    .ok { shape_ := A.shape_.set (A.shape_.length - 1) (A.shape_.getD (A.shape_.length - 1) 0 * 1 / 2),
          strides_ := strides_for_shape (A.shape_.set (A.shape_.length - 1) (A.shape_.getD (A.shape_.length - 1) 0 * 1 / 2)),
          size_ := size_for_shape (A.shape_.set (A.shape_.length - 1) (A.shape_.getD (A.shape_.length - 1) 0 * 1 / 2)),
          offset_ := A.offset_ * 1 / 2, blk_ := A.blk_ }

/-- `ndarray::view<T2>()` for a complex element `T` (two cells)
reinterpreted as real `T2` (one cell): `sizeof(T) < sizeof(T2)` is false so
both divisibility checks are skipped; the last extent becomes
`shape[Dim-1] * 2 / 1` and the offset `offset * 2 / 1`. -/
def viewReal (A : ndarr) : ndarr :=
  { shape_ := A.shape_.set (A.shape_.length - 1) (A.shape_.getD (A.shape_.length - 1) 0 * 2 / 1),
    strides_ := strides_for_shape (A.shape_.set (A.shape_.length - 1) (A.shape_.getD (A.shape_.length - 1) 0 * 2 / 1)),
    size_ := size_for_shape (A.shape_.set (A.shape_.length - 1) (A.shape_.getD (A.shape_.length - 1) 0 * 2 / 1)),
    offset_ := A.offset_ * 2 / 1, blk_ := A.blk_ }

/-- The destination-shape loop of `detail::transpose_impl`:
`shape[pattern[i]] = array.shape()[i]` over a zero-initialized vector. -/
def transposeShape (s p : List Nat) : List Nat :=
  (List.range s.length).foldl (fun sh i => sh.set (p.getD i 0) (s.getD i 0))
    (List.replicate s.length 0)

/-- The index-decomposition loop of `detail::transpose_impl` for flat source
position `i`: for `ind` in `0..dim`,
`indices[pattern[dim-ind-1]] = res % shape[dim-ind-1]; res /= shape[dim-ind-1]`.
When `pattern` is a permutation the `indices` vector is fully overwritten on
each outer iteration, so it is modelled as starting from zeros. -/
def transposeIndices (s p : List Nat) (i : Nat) : List Nat :=
  ((List.range s.length).foldl
    (fun st ind =>
      (st.1.set (p.getD (s.length - 1 - ind) 0) (st.2 % s.getD (s.length - 1 - ind) 0),
       st.2 / s.getD (s.length - 1 - ind) 0))
    (List.replicate s.length 0, i)).1

/-- `detail::transpose_impl`: allocate a fresh, zero-initialized, densely
packed result of the permuted shape (`ndarray<T, Dim> result(shape)`), then
for each flat source position `i` scatter-write
`array.storage[array.offset + i]` to the linear destination address
`Σ indices[k] * result.strides[k]`. -/
def transpose_impl (h : Heap) (A : ndarr) (p : List Nat) : Heap × ndarr :=
  (h ++ [(List.range A.size_).foldl
      (fun b i => b.set (dotProd (transposeIndices A.shape_ p i) (strides_for_shape (transposeShape A.shape_ p)))
                        ((h.getD A.blk_ []).getD (A.offset_ + i) 0))
      (List.replicate (size_for_shape (transposeShape A.shape_ p)) 0)],
   { shape_ := transposeShape A.shape_ p,
     strides_ := strides_for_shape (transposeShape A.shape_ p),
     size_ := size_for_shape (transposeShape A.shape_ p),
     offset_ := 0, blk_ := h.length })

/-- A valid axis-permutation pattern `p` of rank `dim` together with its
inverse `q`.  The `transpose` entry point derives `pattern` from a
bijective label map between the two sides of the Einstein-notation string
(for `"ij->ji"` on rank 2: `pattern = [1, 0]`), so an inverse exists. -/
def IsPerm (p q : List Nat) (dim : Nat) : Prop :=
  p.length = dim ∧ q.length = dim ∧
  (∀ i, i < dim → p.getD i 0 < dim) ∧ (∀ j, j < dim → q.getD j 0 < dim) ∧
  (∀ i, i < dim → q.getD (p.getD i 0) 0 = i) ∧ (∀ j, j < dim → p.getD (q.getD j 0) 0 = j)

instance (p q : List Nat) (dim : Nat) : Decidable (IsPerm p q dim) := by
  unfold IsPerm; infer_instance

/-- The permuted coordinate tuple: destination coordinates `c2` with
`c2[pattern[i]] = c[i]` for every source axis `i`. -/
def permuteCoords (p c : List Nat) : List Nat :=
  (List.range c.length).foldl (fun idx i => idx.set (p.getD i 0) (c.getD i 0))
    (List.replicate c.length 0)

/-! Reference-counted storage (`storage_t`, src/src/green/ndarray/storage.h),
modelled as a state machine.  A state holds, per allocated count cell
(block): its reference count and its release policy (`true` for the owning
`standard_deallocation`); and per storage handle: the block it references,
or `none` once destroyed or moved from. -/

/-- The storage-handle operations of `storage_t` relevant to the reference
count: allocating construction, foreign-pointer construction, copy
construction, destruction, and copy assignment. -/
inductive SOp where
  | newOwn
  | newRef
  | copyCon (src : Nat)
  | destroy (hd : Nat)
  | copyAssign (dst src : Nat)
deriving Repr, DecidableEq

/-- State of the storage model: reference counts and release policies per
block, and the block referenced by each handle. -/
structure SState where
  counts : List Nat
  owners : List Bool
  handles : List (Option Nat)
deriving Repr, DecidableEq

/-- No storage allocated, no handles. -/
def sInit : SState := ⟨[], [], []⟩

/-- One storage-handle operation, following storage.h exactly:
`storage_t(size)` and `storage_t(void*)` create a fresh count cell holding
1; the copy constructor shares the block and increments
(`++(*data_.count)`); the destructor calls the release function, which
decrements; copy assignment (lines 103-108) overwrites `data_` with the
source block and increments its count — it does not release the block the
destination previously held.  Operations on destroyed handles are undefined
behaviour in the source and leave the state unchanged here. -/
def sStep (st : SState) : SOp → SState
  | .newOwn => ⟨st.counts ++ [1], st.owners ++ [true], st.handles ++ [some st.counts.length]⟩
  | .newRef => ⟨st.counts ++ [1], st.owners ++ [false], st.handles ++ [some st.counts.length]⟩
  | .copyCon s =>
    match st.handles.getD s none with
    | some b => ⟨st.counts.set b (st.counts.getD b 0 + 1), st.owners, st.handles ++ [some b]⟩
    | none => st
  | .destroy hd =>
    match st.handles.getD hd none with
    | some b => ⟨st.counts.set b (st.counts.getD b 0 - 1), st.owners, st.handles.set hd none⟩
    | none => st
  | .copyAssign t s =>
    match st.handles.getD t none, st.handles.getD s none with
    | some _, some b => ⟨st.counts.set b (st.counts.getD b 0 + 1), st.owners, st.handles.set t (some b)⟩
    | _, _ => st

/-- Run a sequence of storage-handle operations from the empty state. -/
def sRun (ops : List SOp) : SState := ops.foldl sStep sInit

/-- Number of live handles referencing block `b`. -/
def liveHandles (st : SState) (b : Nat) : Nat :=
  st.handles.countP (fun x => x == some b)

/-- `ndarray::set_ref(new_data)` (part_000 line 440) forwards to
`storage_t::reset` (storage.h lines 144-148): release the currently held
block (decrement its count; memory is freed if it reaches zero under the
owning policy), then rebind to a fresh count cell with count 1 and the
default no-op (non-owning) release policy.  The code performs no ownership
check and never throws. -/
def set_ref (st : SState) (hd : Nat) : Except RErr SState :=
  match st.handles.getD hd none with
  | some b => .ok ⟨(st.counts.set b (st.counts.getD b 0 - 1)) ++ [1], st.owners ++ [false],
                   st.handles.set hd (some st.counts.length)⟩
  | none => .ok st

/-! ### Helper lemmas about lists, strides and linear addresses -/

theorem size_for_shape_eq_prod (s : List Nat) : size_for_shape s = s.prod := by
  unfold size_for_shape
  rw [List.prod_eq_foldl]

theorem strides_for_shape_length (s : List Nat) :
    (strides_for_shape s).length = s.length := by
  induction s with
  | nil => rfl
  | cons a tl ih =>
    cases tl with
    | nil => rfl
    | cons b tl2 => simp only [strides_for_shape, List.length_cons] at ih ⊢; omega

theorem strides_for_shape_getD (s : List Nat) :
    ∀ i, i < s.length → (strides_for_shape s).getD i 0 = (s.drop (i + 1)).prod := by
  induction s with
  | nil => intro i hi; simp at hi
  | cons a tl ih =>
    intro i hi
    cases tl with
    | nil =>
      have : i = 0 := by simp at hi; omega
      subst this
      simp [strides_for_shape]
    | cons b tl2 =>
      cases i with
      | zero =>
        have hlen : (strides_for_shape (b :: tl2)).length = (b :: tl2).length :=
          strides_for_shape_length _
        have hhead : (strides_for_shape (b :: tl2)).headD 1 =
            (strides_for_shape (b :: tl2)).getD 0 1 := by
          cases hx : strides_for_shape (b :: tl2) with
          | nil => rfl
          | cons x xs => rfl
        have h0 : (strides_for_shape (b :: tl2)).getD 0 1 =
            (strides_for_shape (b :: tl2)).getD 0 0 := by
          cases hx : strides_for_shape (b :: tl2) with
          | nil => rw [hx] at hlen; simp at hlen
          | cons x xs => rfl
        have ihb := ih 0 (by simp)
        simp only [strides_for_shape, List.getD_cons_zero]
        rw [hhead, h0, ihb]
        simp [List.prod_cons, Nat.mul_comm]
      | succ j =>
        have ihb := ih j (by simp at hi ⊢; omega)
        simp only [strides_for_shape, List.getD_cons_succ]
        rw [ihb]
        rfl

theorem getD_set_self_nd {α : Type} (l : List α) (i : Nat) (a d : α) (h : i < l.length) :
    (l.set i a).getD i d = a := by
  rw [List.getD_eq_getElem?_getD, List.getElem?_set_self h]
  rfl

theorem getD_set_ne_nd {α : Type} (l : List α) {i j : Nat} (a d : α) (h : i ≠ j) :
    (l.set i a).getD j d = l.getD j d := by
  rw [List.getD_eq_getElem?_getD, List.getElem?_set_ne h, ← List.getD_eq_getElem?_getD]

theorem getD_ext_nd {α : Type} (d : α) : ∀ (l1 l2 : List α), l1.length = l2.length →
    (∀ j, j < l1.length → l1.getD j d = l2.getD j d) → l1 = l2 := by
  intro l1
  induction l1 with
  | nil => intro l2 hl _; cases l2 with
    | nil => rfl
    | cons x xs => simp at hl
  | cons x xs ih =>
    intro l2 hl hj
    cases l2 with
    | nil => simp at hl
    | cons y ys =>
      have h0 := hj 0 (by simp)
      simp only [List.getD_cons_zero] at h0
      subst h0
      have := ih ys (by simpa using hl) (fun j hjlt => by
        have := hj (j + 1) (by simpa using Nat.succ_lt_succ hjlt)
        simpa using this)
      rw [this]

theorem strides_cons (a : Nat) (tl : List Nat) (h : tl ≠ []) :
    strides_for_shape (a :: tl) = tl.prod :: strides_for_shape tl := by
  cases tl with
  | nil => exact absurd rfl h
  | cons b tl2 =>
    have hlen : (strides_for_shape (b :: tl2)).length = (b :: tl2).length :=
      strides_for_shape_length _
    have hget := strides_for_shape_getD (b :: tl2) 0 (by simp)
    simp only [strides_for_shape]
    congr 1
    cases hx : strides_for_shape (b :: tl2) with
    | nil => rw [hx] at hlen; simp at hlen
    | cons x xs =>
      rw [hx] at hget
      simp only [List.getD_cons_zero] at hget
      simp only [List.headD_cons, hget]
      simp [List.prod_cons, Nat.mul_comm]

theorem strides_drop (K : Nat) : ∀ (s : List Nat),
    strides_for_shape (s.drop K) = (strides_for_shape s).drop K := by
  induction K with
  | zero => intro s; simp
  | succ k ih =>
    intro s
    cases s with
    | nil => simp [strides_for_shape]
    | cons a tl =>
      cases tl with
      | nil => simp [strides_for_shape, List.drop_nil]
      | cons b tl2 =>
        rw [strides_cons a (b :: tl2) (by simp)]
        simp only [List.drop_succ_cons]
        exact ih (b :: tl2)

theorem strides_append_single (a : Nat) : ∀ (P : List Nat),
    strides_for_shape (P ++ [a]) = (strides_for_shape P).map (· * a) ++ [1] := by
  intro P
  induction P with
  | nil => simp [strides_for_shape]
  | cons x P2 ih =>
    have hne : P2 ++ [a] ≠ [] := by simp
    rw [List.cons_append, strides_cons x (P2 ++ [a]) hne, ih]
    cases P2 with
    | nil => simp [strides_for_shape, List.prod_cons]
    | cons y P3 =>
      rw [strides_cons x (y :: P3) (by simp)]
      simp only [List.prod_append, List.prod_cons, List.map_cons, List.cons_append,
        List.prod_nil, Nat.mul_one]
      rw [Nat.mul_assoc]

theorem dot_cons (x y : Nat) (xs ys : List Nat) :
    dotProd (x :: xs) (y :: ys) = x * y + dotProd xs ys := by
  simp [dotProd]

theorem dot_append (c1 c2 s1 s2 : List Nat) (h : c1.length = s1.length) :
    dotProd (c1 ++ c2) (s1 ++ s2) = dotProd c1 s1 + dotProd c2 s2 := by
  unfold dotProd
  rw [List.zipWith_append _ _ _ _ _ h, List.sum_append]

theorem dot_map_mul (a : Nat) : ∀ (c s : List Nat),
    dotProd c (s.map (· * a)) = a * dotProd c s := by
  intro c
  induction c with
  | nil => intro s; simp [dotProd]
  | cons x xs ih =>
    intro s
    cases s with
    | nil => simp [dotProd]
    | cons y ys =>
      simp only [List.map_cons, dot_cons, ih ys]
      ring

theorem dot_take : ∀ (xs ys : List Nat), dotProd xs (ys.take xs.length) = dotProd xs ys := by
  intro xs
  induction xs with
  | nil => intro ys; simp [dotProd]
  | cons x xs2 ih =>
    intro ys
    cases ys with
    | nil => simp [dotProd]
    | cons y ys2 =>
      simp only [List.length_cons, List.take_succ_cons, dot_cons, ih ys2]

theorem dot_snoc (c P : List Nat) (k a : Nat) (h : c.length = P.length) :
    dotProd (c ++ [k]) (strides_for_shape (P ++ [a])) =
      a * dotProd c (strides_for_shape P) + k := by
  rw [strides_append_single a P]
  rw [dot_append c [k] _ [1] (by rw [List.length_map, strides_for_shape_length]; exact h)]
  rw [dot_map_mul]
  simp [dotProd]

theorem validIdx_cons (x a : Nat) (xs tl : List Nat) :
    validIdx (x :: xs) (a :: tl) ↔ x < a ∧ validIdx xs tl := by
  unfold validIdx
  constructor
  · rintro ⟨hl, hall⟩
    refine ⟨by simpa using hall 0 (by simp), by simpa using hl, fun i hi => ?_⟩
    simpa using hall (i + 1) (by simpa using Nat.succ_lt_succ hi)
  · rintro ⟨hx, hl, hall⟩
    refine ⟨by simpa using hl, fun i hi => ?_⟩
    cases i with
    | zero => simpa using hx
    | succ j => simpa using hall j (by simpa using hi)

theorem validIdx_nil (c : List Nat) : validIdx c [] ↔ c = [] := by
  unfold validIdx
  constructor
  · rintro ⟨hl, _⟩; exact List.length_eq_zero.mp (by simpa using hl)
  · rintro rfl; exact ⟨rfl, fun i hi => by simp at hi⟩

theorem validIdx_snoc (k a : Nat) : ∀ (c P : List Nat), c.length = P.length →
    (validIdx (c ++ [k]) (P ++ [a]) ↔ validIdx c P ∧ k < a) := by
  intro c
  induction c with
  | nil =>
    intro P hl
    have : P = [] := List.length_eq_zero.mp (by simpa using hl.symm)
    subst this
    simp only [List.nil_append]
    rw [validIdx_cons, validIdx_nil]
    tauto
  | cons x xs ih =>
    intro P hl
    cases P with
    | nil => simp at hl
    | cons p ps =>
      simp only [List.cons_append]
      rw [validIdx_cons, validIdx_cons, ih ps (by simpa using hl)]
      tauto

theorem validIdx_length {c s : List Nat} (h : validIdx c s) : c.length = s.length := h.1

theorem dot_lt_prod : ∀ (s c : List Nat), validIdx c s →
    dotProd c (strides_for_shape s) < s.prod := by
  intro s
  induction s with
  | nil =>
    intro c hc
    rw [(validIdx_nil c).mp hc]
    simp [dotProd]
  | cons a tl ih =>
    intro c hc
    cases c with
    | nil => exact absurd (validIdx_length hc) (by simp)
    | cons x xs =>
      rw [validIdx_cons] at hc
      obtain ⟨hx, hxs⟩ := hc
      cases tl with
      | nil =>
        rw [(validIdx_nil xs).mp hxs]
        simpa [strides_for_shape, dotProd, List.prod_cons] using hx
      | cons b tl2 =>
        rw [strides_cons a (b :: tl2) (by simp), dot_cons]
        have hlt := ih xs hxs
        calc x * (b :: tl2).prod + dotProd xs (strides_for_shape (b :: tl2))
            < x * (b :: tl2).prod + (b :: tl2).prod := by omega
          _ = (x + 1) * (b :: tl2).prod := by ring
          _ ≤ a * (b :: tl2).prod := Nat.mul_le_mul_right _ hx
          _ = (a :: b :: tl2).prod := by simp [List.prod_cons]

theorem prod_pos_of_validIdx : ∀ (s c : List Nat), validIdx c s → 0 < s.prod := by
  intro s c h
  have := dot_lt_prod s c h
  omega

theorem flatten_inj : ∀ (s c1 c2 : List Nat), validIdx c1 s → validIdx c2 s →
    dotProd c1 (strides_for_shape s) = dotProd c2 (strides_for_shape s) → c1 = c2 := by
  intro s
  induction s with
  | nil =>
    intro c1 c2 h1 h2 _
    rw [(validIdx_nil c1).mp h1, (validIdx_nil c2).mp h2]
  | cons a tl ih =>
    intro c1 c2 h1 h2 heq
    cases c1 with
    | nil => exact absurd (validIdx_length h1) (by simp)
    | cons x xs =>
      cases c2 with
      | nil => exact absurd (validIdx_length h2) (by simp)
      | cons y ys =>
        rw [validIdx_cons] at h1 h2
        obtain ⟨hx, hxs⟩ := h1
        obtain ⟨hy, hys⟩ := h2
        cases tl with
        | nil =>
          have hx0 := (validIdx_nil xs).mp hxs
          have hy0 := (validIdx_nil ys).mp hys
          subst hx0
          subst hy0
          simp only [strides_for_shape, dotProd, List.zipWith_cons_cons,
            List.zipWith_nil_right, List.sum_cons, List.sum_nil] at heq
          have : x = y := by omega
          rw [this]
        | cons b tl2 =>
          rw [strides_cons a (b :: tl2) (by simp), dot_cons, dot_cons] at heq
          have hd1 := dot_lt_prod (b :: tl2) xs hxs
          have hd2 := dot_lt_prod (b :: tl2) ys hys
          have hxy : x = y := by
            by_contra hne
            rcases Nat.lt_or_ge x y with hlt | hge
            · nlinarith
            · have : y < x := by omega
              nlinarith
          subst hxy
          have : dotProd xs (strides_for_shape (b :: tl2)) =
              dotProd ys (strides_for_shape (b :: tl2)) := by omega
          rw [ih xs ys hxs hys this]

theorem flatten_surj : ∀ (s : List Nat) (j : Nat), j < s.prod →
    ∃ c, validIdx c s ∧ dotProd c (strides_for_shape s) = j := by
  intro s
  induction s with
  | nil =>
    intro j hj
    simp only [List.prod_nil] at hj
    have : j = 0 := by omega
    subst this
    exact ⟨[], (validIdx_nil []).mpr rfl, rfl⟩
  | cons a tl ih =>
    intro j hj
    rw [List.prod_cons] at hj
    have htlpos : 0 < tl.prod := by
      rcases Nat.eq_zero_or_pos tl.prod with h0 | hpos
      · rw [h0, Nat.mul_zero] at hj; omega
      · exact hpos
    obtain ⟨c, hc, hdot⟩ := ih (j % tl.prod) (Nat.mod_lt _ htlpos)
    refine ⟨j / tl.prod :: c, ?_, ?_⟩
    · rw [validIdx_cons]
      exact ⟨Nat.div_lt_of_lt_mul (by rw [Nat.mul_comm]; exact hj), hc⟩
    · cases tl with
      | nil =>
        rw [(validIdx_nil c).mp hc]
        simp only [strides_for_shape, dotProd, List.zipWith_cons_cons,
          List.zipWith_nil_right, List.sum_cons, List.sum_nil, List.prod_nil] at hdot ⊢
        omega
      | cons b tl2 =>
        rw [strides_cons a (b :: tl2) (by simp), dot_cons, hdot, Nat.mul_comm]
        exact Nat.div_add_mod j (b :: tl2).prod

/-! ### C1: row-major law for freshly constructed arrays -/

/-- C1: for an array freshly constructed from shape `S` of rank `R`, the
total element count is `product(S)` and the stride at every axis `i` is the
product of the extents of `S` at axes `i+1 .. R-1` (so the last axis has
stride 1).  From `ndarray::ndarray(const std::array<size_t, Dim>&)` with
`size_for_shape` and `strides_for_shape`. -/
theorem rowMajorLaw (h : Heap) (s : List Nat) :
    (make h s).2.size_ = s.prod ∧
    ∀ i, i < s.length → (make h s).2.strides_.getD i 0 = (s.drop (i + 1)).prod := by
  constructor
  · exact size_for_shape_eq_prod s
  · intro i hi
    exact strides_for_shape_getD s i hi

/-- Witness for C1 at the concrete shape (2, 3, 4): size 24, strides
(12, 4, 1). -/
theorem rowMajorLaw_witness :
    (make [] [2, 3, 4]).2.size_ = 24 ∧
    (make [] [2, 3, 4]).2.strides_.getD 0 0 = 12 ∧
    (make [] [2, 3, 4]).2.strides_.getD 1 0 = 4 ∧
    (make [] [2, 3, 4]).2.strides_.getD 2 0 = 1 := by
  have h := rowMajorLaw [] [2, 3, 4]
  refine ⟨?_, ?_, ?_, ?_⟩
  · rw [h.1]; decide
  · rw [h.2 0 (by decide)]; decide
  · rw [h.2 1 (by decide)]; decide
  · rw [h.2 2 (by decide)]; decide

/-! ### C2: slicing law -/

theorem getD_map_range {α : Type} (f : Nat → α) (n i : Nat) (d : α) (h : i < n) :
    ((List.range n).map f).getD i d = f i := by
  rw [List.getD_eq_getElem?_getD, List.getElem?_map, List.getElem?_range h]
  rfl

/-- C2: slicing a rank-R array at K < R valid leading indices yields the
rank-(R-K) view whose shape is the trailing R-K extents, whose offset is
the original offset plus the inner product of the fixed indices with the
leading strides, and whose strides are the trailing R-K strides; reading
the slice at any trailing coordinates reads the parent at the concatenated
coordinates, and the storage block is shared (no element data is copied —
`slice` does not touch the heap).  From the slicing constructor with
`get_shape`, `compute_offset` and `strides_for_shape`. -/
theorem sliceLaw (h : Heap) (A : ndarr) (inds : List Nat)
    (hstr : A.strides_ = strides_for_shape A.shape_)
    (hK : inds.length < A.shape_.length)
    (hvalid : ∀ k, k < inds.length → inds.getD k 0 < A.shape_.getD k 0) :
    (slice A inds).shape_ = A.shape_.drop inds.length ∧
    (slice A inds).offset_ = A.offset_ + dotProd inds A.strides_ ∧
    (slice A inds).strides_ = A.strides_.drop inds.length ∧
    (slice A inds).blk_ = A.blk_ ∧
    ∀ rest, readIdx h (slice A inds) rest = readIdx h A (inds ++ rest) := by
  have hdropstr : strides_for_shape (A.shape_.drop inds.length) = A.strides_.drop inds.length := by
    rw [strides_drop, hstr]
  refine ⟨rfl, rfl, hdropstr, rfl, ?_⟩
  intro rest
  have hlenstr : inds.length ≤ A.strides_.length := by
    rw [hstr, strides_for_shape_length]
    omega
  have htakelen : (A.strides_.take inds.length).length = inds.length := by
    rw [List.length_take]
    omega
  have hsplit : dotProd (inds ++ rest) A.strides_ =
      dotProd inds A.strides_ + dotProd rest (A.strides_.drop inds.length) := by
    calc dotProd (inds ++ rest) A.strides_
        = dotProd (inds ++ rest) (A.strides_.take inds.length ++ A.strides_.drop inds.length) := by
          rw [List.take_append_drop]
      _ = dotProd inds (A.strides_.take inds.length) +
            dotProd rest (A.strides_.drop inds.length) :=
          dot_append _ _ _ _ htakelen.symm
      _ = dotProd inds A.strides_ + dotProd rest (A.strides_.drop inds.length) := by
          rw [dot_take]
  simp only [readIdx, slice, hdropstr]
  congr 1
  rw [hsplit]
  omega

/-- Witness for C2: slicing the fresh (2,3,4) array at leading index 1
gives offset 12 and reading the slice at (2,3) reads the parent at
(1,2,3). -/
theorem sliceLaw_witness :
    (slice (make [] [2, 3, 4]).2 [1]).offset_ = 12 ∧
    readIdx (make [] [2, 3, 4]).1 (slice (make [] [2, 3, 4]).2 [1]) [2, 3] =
      readIdx (make [] [2, 3, 4]).1 (make [] [2, 3, 4]).2 [1, 2, 3] := by
  have t := sliceLaw (make [] [2, 3, 4]).1 (make [] [2, 3, 4]).2 [1] rfl (by decide) (by decide)
  refine ⟨?_, t.2.2.2.2 [2, 3]⟩
  rw [t.2.1]
  decide

/-! ### C4: reshape preserves flat element order and round-trips -/

/-- C4: for an array with zero offset, reshaping to a compatible shape
yields an array on the same storage whose element at every flattened
position `p` is the original element at flattened position `p`, and
reshaping the result back to the original shape restores the original
array (shape, strides, size, offset and storage).  From
`ndarray::reshape` / `ndarray::inplace_reshape`. -/
theorem reshapeLaw (h : Heap) (A : ndarr) (s2 : List Nat)
    (hoff : A.offset_ = 0) (hsz : size_for_shape s2 = A.size_)
    (hstr : A.strides_ = strides_for_shape A.shape_)
    (hcan : A.size_ = size_for_shape A.shape_) :
    ∃ B, reshape A s2 = Except.ok B ∧ B.shape_ = s2 ∧ B.blk_ = A.blk_ ∧
      (∀ p, readFlat h B p = readFlat h A p) ∧
      reshape B A.shape_ = Except.ok A := by
  refine ⟨⟨s2, strides_for_shape s2, A.size_, A.offset_, A.blk_⟩, ?_, rfl, rfl, ?_, ?_⟩
  · unfold reshape
    rw [if_neg (by rw [hsz]; exact fun hne => hne rfl), if_neg (by rw [hoff]; exact fun hne => hne rfl)]
  · intro p
    rfl
  · unfold reshape
    simp only
    rw [if_neg (by rw [hcan]; exact fun hne => hne rfl), if_neg (by rw [hoff]; exact fun hne => hne rfl)]
    rw [← hstr]

/-- Witness for C4 on the fresh (2,3,4) array reshaped to (4,6). -/
theorem reshapeLaw_witness :
    ∃ B, reshape (make [] [2, 3, 4]).2 [4, 6] = Except.ok B ∧ B.shape_ = [4, 6] ∧
      B.blk_ = (make [] [2, 3, 4]).2.blk_ ∧
      (∀ p, readFlat (make [] [2, 3, 4]).1 B p =
        readFlat (make [] [2, 3, 4]).1 (make [] [2, 3, 4]).2 p) ∧
      reshape B (make [] [2, 3, 4]).2.shape_ = Except.ok (make [] [2, 3, 4]).2 :=
  reshapeLaw (make [] [2, 3, 4]).1 (make [] [2, 3, 4]).2 [4, 6] rfl (by decide) rfl rfl

/-! ### C6: deep copy isolation -/

/-- C6: `copy()` allocates a fresh storage block holding the same element
values; afterwards writing any element through the original does not change
any element read through the copy, and writing through the copy does not
change any element read through the original. -/
theorem deepCopyIsolation (h : Heap) (A : ndarr)
    (hblk : A.blk_ < h.length) (hsz : A.size_ = size_for_shape A.shape_) :
    (copyArr h A).2.blk_ ≠ A.blk_ ∧
    (∀ p, p < A.size_ → readFlat (copyArr h A).1 (copyArr h A).2 p = readFlat h A p) ∧
    (∀ idx v rest, readIdx (writeIdx (copyArr h A).1 A idx v) (copyArr h A).2 rest =
      readIdx (copyArr h A).1 (copyArr h A).2 rest) ∧
    (∀ idx v rest, readIdx (writeIdx (copyArr h A).1 (copyArr h A).2 idx v) A rest =
      readIdx (copyArr h A).1 A rest) := by
  have hne : (copyArr h A).2.blk_ ≠ A.blk_ := by
    show h.length ≠ A.blk_
    omega
  refine ⟨hne, ?_, ?_, ?_⟩
  · intro p hp
    show ((h ++ [_]).getD h.length []).getD (0 + p) 0 = readFlat h A p
    rw [List.getD_append_right _ _ _ _ (Nat.le_refl _), Nat.sub_self]
    simp only [List.getD_cons_zero, Nat.zero_add]
    rw [getD_map_range _ _ _ _ (by omega : p < size_for_shape A.shape_)]
    rw [if_pos hp]
    rfl
  · intro idx v rest
    show ((((copyArr h A).1).set A.blk_ _).getD (copyArr h A).2.blk_ []).getD _ 0 =
      (((copyArr h A).1).getD (copyArr h A).2.blk_ []).getD _ 0
    rw [getD_set_ne_nd _ _ _ (fun hx => hne hx.symm)]
  · intro idx v rest
    show ((((copyArr h A).1).set (copyArr h A).2.blk_ _).getD A.blk_ []).getD _ 0 =
      (((copyArr h A).1).getD A.blk_ []).getD _ 0
    rw [getD_set_ne_nd _ _ _ hne]

/-- Witness for C6 on a concrete two-element array over heap block 0. -/
theorem deepCopyIsolation_witness :
    (copyArr [[5, 7]] ⟨[2], [1], 2, 0, 0⟩).2.blk_ ≠ 0 ∧
    readFlat (copyArr [[5, 7]] ⟨[2], [1], 2, 0, 0⟩).1 (copyArr [[5, 7]] ⟨[2], [1], 2, 0, 0⟩).2 1 =
      readFlat [[5, 7]] ⟨[2], [1], 2, 0, 0⟩ 1 ∧
    readIdx (writeIdx (copyArr [[5, 7]] ⟨[2], [1], 2, 0, 0⟩).1 ⟨[2], [1], 2, 0, 0⟩ [1] 9)
        (copyArr [[5, 7]] ⟨[2], [1], 2, 0, 0⟩).2 [1] =
      readIdx (copyArr [[5, 7]] ⟨[2], [1], 2, 0, 0⟩).1 (copyArr [[5, 7]] ⟨[2], [1], 2, 0, 0⟩).2 [1] := by
  have t := deepCopyIsolation [[5, 7]] ⟨[2], [1], 2, 0, 0⟩ (by decide) (by decide)
  exact ⟨t.1, t.2.1 1 (by decide), t.2.2.1 [1] 9 [1]⟩

/-! ### C9: size == product(shape) invariant (amended) -/

/-- Counterexample for C9 as stated: the cross-rank conversion constructor
(part_000 lines 145-147) zero-initializes the shape but copies the size, so
an array produced by that public constructor from a fresh (3,4) array has
size 12 and shape product 0; likewise a rank-0 default-constructed array
has size 0 and shape product 1. -/
theorem sizeInvariant_counterexample :
    (rankChangeCtor (make [] [3, 4]).2 3).size_ = 12 ∧
    (rankChangeCtor (make [] [3, 4]).2 3).shape_.prod = 0 ∧
    (defaultCtor 0).size_ = 0 ∧ (defaultCtor 0).shape_.prod = 1 := by
  decide

/-- C9 amended: every constructor and operation that derives its size from
its own shape — construction from a shape or from a foreign pointer,
slicing, reshape, `view` in both directions, `copy()`, and the default
constructor at positive rank — satisfies `size == product(shape)`; the
cross-rank conversion constructor and the rank-0 default constructor do
not. -/
theorem sizeInvariant (h : Heap) (A : ndarr) (inds s s2 : List Nat) (B C : ndarr)
    (data : Option Nat) (dim : Nat) :
    ((make h s).2.size_ = (make h s).2.shape_.prod) ∧
    ((fromPtr h data s).2.size_ = (fromPtr h data s).2.shape_.prod) ∧
    ((slice A inds).size_ = (slice A inds).shape_.prod) ∧
    (reshape A s2 = Except.ok B → B.size_ = B.shape_.prod) ∧
    (viewComplex A = Except.ok C → C.size_ = C.shape_.prod) ∧
    ((viewReal A).size_ = (viewReal A).shape_.prod) ∧
    ((copyArr h A).2.size_ = (copyArr h A).2.shape_.prod) ∧
    (1 ≤ dim → (defaultCtor dim).size_ = (defaultCtor dim).shape_.prod) := by
  refine ⟨size_for_shape_eq_prod s, ?_, size_for_shape_eq_prod _, ?_, ?_,
    size_for_shape_eq_prod _, size_for_shape_eq_prod _, ?_⟩
  · cases data with
    | none => exact size_for_shape_eq_prod s
    | some b => exact size_for_shape_eq_prod s
  · intro hB
    unfold reshape at hB
    split at hB
    · exact absurd hB (by simp)
    · split at hB
      · exact absurd hB (by simp)
      · rename_i hszeq _
        rw [Except.ok.injEq] at hB
        rw [← hB]
        simp only
        rw [← size_for_shape_eq_prod]
        omega
  · intro hC
    unfold viewComplex at hC
    split at hC
    · exact absurd hC (by simp)
    · split at hC
      · exact absurd hC (by simp)
      · rw [Except.ok.injEq] at hC
        rw [← hC]
        exact size_for_shape_eq_prod _
  · intro hdim
    show (0 : Nat) = (List.replicate dim 0).prod
    rw [List.prod_replicate]
    rw [Nat.zero_pow (by omega)]

/-- Witness for C9 (amended) at concrete inputs: reshape of a fresh (2,4)
array to (8), its complex view, a null-pointer foreign construction of
shape (2,4), and the rank-1 default array. -/
theorem sizeInvariant_witness :
    ((⟨[8], [1], 8, 0, 0⟩ : ndarr).size_ = ([8] : List Nat).prod) ∧
    ((⟨[2, 2], [2, 1], 4, 0, 0⟩ : ndarr).size_ = ([2, 2] : List Nat).prod) ∧
    ((fromPtr [] none [2, 4]).2.size_ = (fromPtr [] none [2, 4]).2.shape_.prod) ∧
    ((defaultCtor 1).size_ = (defaultCtor 1).shape_.prod) := by
  have t := sizeInvariant [] (make [] [2, 4]).2 [] [2, 4] [8]
    ⟨[8], [1], 8, 0, 0⟩ ⟨[2, 2], [2, 1], 4, 0, 0⟩ none 1
  exact ⟨t.2.2.2.1 (by rfl), t.2.2.2.2.1 (by rfl), t.2.1, t.2.2.2.2.2.2.2 (by decide)⟩

/-! ### C10: foreign-pointer construction zeroes the buffer -/

/-- C3 evaluated on the code: construction gives count 1, copy
construction gives 2, destroying the copy returns to 1 — but after the
four-operation sequence mirrored from the repository's own
"Copy Assignment" storage test (st1 and st2 allocated, st3 copy-constructed
from st1, then `st1 = st2`), the block originally shared by st1 and st3
still has count 2 while only st3 (one live handle) references it, because
`storage_t::operator=` increments the source block without releasing the
block previously held.  The test requires that count to be 1. -/
theorem refCountCopyAssignBug :
    (sRun [SOp.newOwn]).counts.getD 0 0 = 1 ∧
    (sRun [SOp.newOwn, SOp.copyCon 0]).counts.getD 0 0 = 2 ∧
    (sRun [SOp.newOwn, SOp.copyCon 0, SOp.destroy 1]).counts.getD 0 0 = 1 ∧
    (sRun [SOp.newOwn, SOp.newOwn, SOp.copyCon 0, SOp.copyAssign 0 1]).counts.getD 0 0 = 2 ∧
    liveHandles (sRun [SOp.newOwn, SOp.newOwn, SOp.copyCon 0, SOp.copyAssign 0 1]) 0 = 1 := by
  decide

/-! ### C7: set_ref performs no ownership check (corrected) -/

/-- Counterexample for C7 as stated: on a handle owning its block
(`owners` entry `true`), `set_ref` does not raise any error — it returns
successfully, releasing the owned block (count drops to 0, freeing it) and
rebinding to a fresh non-owning block. -/
theorem setRef_counterexample :
    (sRun [SOp.newOwn]).owners.getD 0 false = true ∧
    set_ref (sRun [SOp.newOwn]) 0 = Except.ok ⟨[0, 1], [true, false], [some 1]⟩ :=
  ⟨by decide, by rfl⟩

/-- C7 amended: `set_ref` rebinds unconditionally, for owning and
non-owning arrays alike, raising no error: it releases the previously held
block (decrementing its count — which frees the block when it reaches zero
under the owning policy) and rebinds the handle to a fresh non-owning block
with count 1. -/
theorem setRefRebinds (st : SState) (hd b : Nat)
    (hlive : st.handles.getD hd none = some b)
    (hb : b < st.counts.length) (hhd : hd < st.handles.length)
    (how : st.owners.length = st.counts.length) :
    ∃ st2, set_ref st hd = Except.ok st2 ∧
      st2.counts.getD b 0 = st.counts.getD b 0 - 1 ∧
      st2.counts.getD st.counts.length 0 = 1 ∧
      st2.owners.getD st.counts.length true = false ∧
      st2.handles.getD hd none = some st.counts.length := by
  refine ⟨⟨(st.counts.set b (st.counts.getD b 0 - 1)) ++ [1], st.owners ++ [false],
    st.handles.set hd (some st.counts.length)⟩, ?_, ?_, ?_, ?_, ?_⟩
  · unfold set_ref
    rw [hlive]
  · show ((st.counts.set b _) ++ [1]).getD b 0 = _
    rw [List.getD_append _ _ _ _ (by rw [List.length_set]; exact hb)]
    exact getD_set_self_nd _ _ _ _ hb
  · show ((st.counts.set b _) ++ [1]).getD st.counts.length 0 = 1
    rw [List.getD_append_right _ _ _ _ (by rw [List.length_set])]
    rw [List.length_set, Nat.sub_self]
    rfl
  · show (st.owners ++ [false]).getD st.counts.length true = false
    rw [List.getD_append_right _ _ _ _ (by omega), how, Nat.sub_self]
    rfl
  · exact getD_set_self_nd _ _ _ _ hhd

/-- Witness for C7 (amended) on a single owning handle with count 5. -/
theorem setRefRebinds_witness :
    ∃ st2, set_ref ⟨[5], [true], [some 0]⟩ 0 = Except.ok st2 ∧
      st2.counts.getD 0 0 = 4 ∧ st2.counts.getD 1 0 = 1 ∧
      st2.owners.getD 1 true = false ∧ st2.handles.getD 0 none = some 1 :=
  setRefRebinds ⟨[5], [true], [some 0]⟩ 0 0 rfl (by decide) (by decide) rfl

/-! ### C5: type-reinterpreting view real -> complex -> real -/

theorem getD_snoc_last {α : Type} (P : List α) (x d : α) : (P ++ [x]).getD P.length d = x := by
  rw [List.getD_append_right _ _ _ _ (Nat.le_refl _), Nat.sub_self]
  rfl

theorem foldl_setr_length {α : Type} (g : Nat → Nat) (v : Nat → α) (m : Nat) (init : List α) :
    ((List.range m).foldl (fun l t => l.set (g t) (v t)) init).length = init.length := by
  induction m with
  | zero => rfl
  | succ k ih =>
    rw [List.range_succ, List.foldl_append]
    show (((List.range k).foldl _ init).set (g k) (v k)).length = init.length
    rw [List.length_set]
    exact ih

theorem foldl_setr_getD_ne {α : Type} (g : Nat → Nat) (v : Nat → α) (m : Nat) (init : List α)
    (j : Nat) (d : α) (hne : ∀ i, i < m → g i ≠ j) :
    ((List.range m).foldl (fun l t => l.set (g t) (v t)) init).getD j d = init.getD j d := by
  induction m with
  | zero => rfl
  | succ k ih =>
    rw [List.range_succ, List.foldl_append]
    show (((List.range k).foldl _ init).set (g k) (v k)).getD j d = init.getD j d
    rw [getD_set_ne_nd _ _ _ (hne k (by omega))]
    exact ih (fun i hi => hne i (by omega))

theorem foldl_setr_getD {α : Type} (g : Nat → Nat) (v : Nat → α) (m : Nat) (init : List α)
    (d : α) (hinj : ∀ i1 i2, i1 < m → i2 < m → g i1 = g i2 → i1 = i2)
    (i : Nat) (him : i < m) (hlt : g i < init.length) :
    ((List.range m).foldl (fun l t => l.set (g t) (v t)) init).getD (g i) d = v i := by
  induction m with
  | zero => omega
  | succ k ih =>
    rw [List.range_succ, List.foldl_append]
    show (((List.range k).foldl _ init).set (g k) (v k)).getD (g i) d = v i
    rcases Nat.lt_or_ge i k with hik | hik
    · rw [getD_set_ne_nd _ _ _ (fun he => by
        have := hinj k i (by omega) (by omega) he
        omega)]
      exact ih (fun i1 i2 h1 h2 => hinj i1 i2 (by omega) (by omega)) hik
    · have hieq : i = k := by omega
      subst hieq
      rw [getD_set_self_nd _ _ _ _ (by rw [foldl_setr_length]; exact hlt)]

theorem foldr_setr_length {α : Type} (g : Nat → Nat) (v : Nat → α) (m : Nat) : ∀ (init : List α),
    ((List.range m).foldr (fun ax st => st.set (g ax) (v ax)) init).length = init.length := by
  induction m with
  | zero => intro init; rfl
  | succ k ih =>
    intro init
    rw [List.range_succ, List.foldr_append]
    show ((List.range k).foldr _ (init.set (g k) (v k))).length = init.length
    rw [ih]
    exact List.length_set init _ _

theorem foldr_setr_getD_ne {α : Type} (g : Nat → Nat) (v : Nat → α) (m : Nat) (j : Nat) (d : α) :
    ∀ (init : List α), (∀ i, i < m → g i ≠ j) →
    ((List.range m).foldr (fun ax st => st.set (g ax) (v ax)) init).getD j d = init.getD j d := by
  induction m with
  | zero => intro init _; rfl
  | succ k ih =>
    intro init hne
    rw [List.range_succ, List.foldr_append]
    show ((List.range k).foldr _ (init.set (g k) (v k))).getD j d = init.getD j d
    rw [ih _ (fun i hi => hne i (by omega))]
    exact getD_set_ne_nd _ _ _ (hne k (by omega))

theorem foldr_setr_getD {α : Type} (g : Nat → Nat) (v : Nat → α) (m : Nat) (d : α)
    (hinj : ∀ i1 i2, i1 < m → i2 < m → g i1 = g i2 → i1 = i2) :
    ∀ (init : List α) (i : Nat), i < m → g i < init.length →
    ((List.range m).foldr (fun ax st => st.set (g ax) (v ax)) init).getD (g i) d = v i := by
  induction m with
  | zero => intro init i him _; omega
  | succ k ih =>
    intro init i him hlt
    rw [List.range_succ, List.foldr_append]
    show ((List.range k).foldr _ (init.set (g k) (v k))).getD (g i) d = v i
    rcases Nat.lt_or_ge i k with hik | hik
    · exact ih (fun i1 i2 h1 h2 => hinj i1 i2 (by omega) (by omega)) _ i hik
        (by rw [List.length_set]; exact hlt)
    · have hieq : i = k := by omega
      rw [hieq]
      rw [foldr_setr_getD_ne g v k _ d _ (fun ax hax he => by
        have := hinj ax k (by omega) (by omega) he
        omega)]
      exact getD_set_self_nd _ _ _ _ (hieq ▸ hlt)

theorem foldr_range_congr {β : Type} (f1 f2 : Nat → β → β) (m : Nat)
    (hfg : ∀ ax, ax < m → ∀ st, f1 ax st = f2 ax st) :
    ∀ (init : β), (List.range m).foldr f1 init = (List.range m).foldr f2 init := by
  induction m with
  | zero => intro init; rfl
  | succ k ih =>
    intro init
    rw [List.range_succ, List.foldr_append, List.foldr_append]
    show (List.range k).foldr f1 (List.foldr f1 init [k]) = (List.range k).foldr f2 (List.foldr f2 init [k])
    simp only [List.foldr_cons, List.foldr_nil]
    rw [hfg k (by omega) init]
    exact ih (fun ax hax st => hfg ax (by omega) st) _

theorem map_range_rev : ∀ (n : Nat), (List.range n).map (fun i => n - 1 - i) = (List.range n).reverse := by
  intro n
  induction n with
  | zero => rfl
  | succ k ih =>
    conv_rhs => rw [List.range_succ]
    rw [List.reverse_append, List.reverse_singleton, List.singleton_append]
    conv_lhs => rw [List.range_succ_eq_map]
    rw [List.map_cons, List.map_map]
    rw [← ih]
    have h0 : k + 1 - 1 - 0 = k := by omega
    have h1 : ((fun i => k + 1 - 1 - i) ∘ Nat.succ) = (fun i => k - 1 - i) := by
      funext x
      show k + 1 - 1 - Nat.succ x = k - 1 - x
      omega
    rw [h0, h1]

theorem foldl_range_rev_eq_foldr {β : Type} (F : Nat → β → β) (n : Nat) (init : β) :
    (List.range n).foldl (fun st ind => F (n - 1 - ind) st) init =
      (List.range n).foldr F init := by
  calc (List.range n).foldl (fun st ind => F (n - 1 - ind) st) init
      = ((List.range n).map (fun ind => n - 1 - ind)).foldl (fun st ax => F ax st) init := by
        rw [List.foldl_map]
    _ = ((List.range n).reverse).foldl (fun st ax => F ax st) init := by rw [map_range_rev]
    _ = (List.range n).foldr F init := by rw [List.foldl_reverse]

theorem transposeIndices_foldr (s p : List Nat) (i : Nat) :
    transposeIndices s p i =
      ((List.range s.length).foldr
        (fun ax st => (st.1.set (p.getD ax 0) (st.2 % s.getD ax 0), st.2 / s.getD ax 0))
        (List.replicate s.length 0, i)).1 := by
  unfold transposeIndices
  exact congrArg Prod.fst (foldl_range_rev_eq_foldr
    (fun ax st => (st.1.set (p.getD ax 0) (st.2 % s.getD ax 0), st.2 / s.getD ax 0))
    s.length (List.replicate s.length 0, i))

/-- The inner loop of `transpose_impl` at the flat position of a valid
coordinate tuple `c` recovers the digits of `c` and scatters them through
the pattern: it is the mixed-radix decomposition of
`Σ c[k]*strides[k]`. -/
theorem decompose_spec : ∀ (s : List Nat), ∀ (c idx p : List Nat), validIdx c s →
    (List.range s.length).foldr
      (fun ax st => (st.1.set (p.getD ax 0) (st.2 % s.getD ax 0), st.2 / s.getD ax 0))
      (idx, dotProd c (strides_for_shape s)) =
    ((List.range s.length).foldr (fun ax st => st.set (p.getD ax 0) (c.getD ax 0)) idx, 0) := by
  intro s
  induction s using List.reverseRecOn with
  | nil =>
    intro c idx p hc
    rw [(validIdx_nil c).mp hc]
    rfl
  | append_singleton P a ih =>
    intro c idx p hc
    have hclen : c.length = P.length + 1 := by simpa using validIdx_length hc
    have hcne : c ≠ [] := by
      intro h0
      rw [h0] at hclen
      simp at hclen
    obtain ⟨c2, k, hck⟩ : ∃ c2 k, c = c2 ++ [k] :=
      ⟨c.dropLast, c.getLast hcne, (List.dropLast_append_getLast hcne).symm⟩
    subst hck
    have hc2len : c2.length = P.length := by simpa using hclen
    rw [validIdx_snoc k a c2 P hc2len] at hc
    obtain ⟨hc2, hk⟩ := hc
    have ha : 0 < a := by omega
    have hlen : (P ++ [a]).length = P.length + 1 := by simp
    rw [hlen, List.range_succ]
    simp only [List.foldr_append, List.foldr_cons, List.foldr_nil]
    have hgetDa : (P ++ [a]).getD P.length 0 = a := getD_snoc_last P a 0
    have hgetDc : (c2 ++ [k]).getD P.length 0 = k := by
      rw [← hc2len]
      exact getD_snoc_last c2 k 0
    rw [dot_snoc c2 P k a hc2len, hgetDa, hgetDc]
    have hmod : (a * dotProd c2 (strides_for_shape P) + k) % a = k := by
      rw [Nat.add_comm, Nat.add_mul_mod_self_left]
      exact Nat.mod_eq_of_lt hk
    have hdiv : (a * dotProd c2 (strides_for_shape P) + k) / a =
        dotProd c2 (strides_for_shape P) := by
      rw [Nat.add_comm, Nat.add_mul_div_left _ _ ha, Nat.div_eq_of_lt hk, Nat.zero_add]
    rw [hmod, hdiv]
    have e1 := foldr_range_congr
      (fun ax st => ((st.1.set (p.getD ax 0) (st.2 % (P ++ [a]).getD ax 0), st.2 / (P ++ [a]).getD ax 0) : List Nat × Nat))
      (fun ax st => (st.1.set (p.getD ax 0) (st.2 % P.getD ax 0), st.2 / P.getD ax 0))
      P.length
      (fun ax hax st => by
        show (st.1.set (p.getD ax 0) (st.2 % (P ++ [a]).getD ax 0), st.2 / (P ++ [a]).getD ax 0) =
          (st.1.set (p.getD ax 0) (st.2 % P.getD ax 0), st.2 / P.getD ax 0)
        rw [List.getD_append _ _ _ _ hax])
      (idx.set (p.getD P.length 0) k, dotProd c2 (strides_for_shape P))
    have e2 := foldr_range_congr
      (fun ax (st : List Nat) => st.set (p.getD ax 0) ((c2 ++ [k]).getD ax 0))
      (fun ax st => st.set (p.getD ax 0) (c2.getD ax 0))
      P.length
      (fun ax hax st => by
        show st.set (p.getD ax 0) ((c2 ++ [k]).getD ax 0) = st.set (p.getD ax 0) (c2.getD ax 0)
        rw [List.getD_append _ _ _ _ (by omega : ax < c2.length)])
      (idx.set (p.getD P.length 0) k)
    rw [e1, e2]
    exact ih c2 (idx.set (p.getD P.length 0) k) p hc2

theorem transposeIndices_scatter (s p c : List Nat) (hc : validIdx c s) :
    transposeIndices s p (dotProd c (strides_for_shape s)) =
      (List.range s.length).foldr (fun ax st => st.set (p.getD ax 0) (c.getD ax 0))
        (List.replicate s.length 0) := by
  rw [transposeIndices_foldr, decompose_spec s c (List.replicate s.length 0) p hc]

theorem permuteCoords_length (p c : List Nat) : (permuteCoords p c).length = c.length := by
  unfold permuteCoords
  rw [foldl_setr_length]
  exact List.length_replicate _ _

theorem isPerm_inj {p q : List Nat} {dim : Nat} (hperm : IsPerm p q dim) :
    ∀ i1 i2, i1 < dim → i2 < dim → p.getD i1 0 = p.getD i2 0 → i1 = i2 := by
  intro i1 i2 h1 h2 he
  have e1 := hperm.2.2.2.2.1 i1 h1
  have e2 := hperm.2.2.2.2.1 i2 h2
  rw [he] at e1
  omega

theorem permuteCoords_getD (p q c : List Nat) (dim : Nat) (hperm : IsPerm p q dim)
    (hclen : c.length = dim) (i : Nat) (hi : i < dim) :
    (permuteCoords p c).getD (p.getD i 0) 0 = c.getD i 0 := by
  unfold permuteCoords
  rw [hclen]
  exact foldl_setr_getD (fun ax => p.getD ax 0) (fun ax => c.getD ax 0) dim
    (List.replicate dim 0) 0 (isPerm_inj hperm) i hi
    (by rw [List.length_replicate]; exact hperm.2.2.1 i hi)

theorem scatter_eq_permuteCoords (s p q c : List Nat) (hperm : IsPerm p q s.length)
    (hc : validIdx c s) :
    (List.range s.length).foldr (fun ax st => st.set (p.getD ax 0) (c.getD ax 0))
      (List.replicate s.length 0) = permuteCoords p c := by
  have hclen : c.length = s.length := validIdx_length hc
  apply getD_ext_nd 0
  · rw [foldr_setr_length, List.length_replicate, permuteCoords_length, hclen]
  · intro j hj
    have hjlen : j < s.length := by
      rwa [foldr_setr_length, List.length_replicate] at hj
    have hqj : q.getD j 0 < s.length := hperm.2.2.2.1 j hjlen
    have hpqj : p.getD (q.getD j 0) 0 = j := hperm.2.2.2.2.2 j hjlen
    rw [← hpqj]
    rw [foldr_setr_getD (fun ax => p.getD ax 0) (fun ax => c.getD ax 0) s.length 0
      (isPerm_inj hperm) (List.replicate s.length 0) (q.getD j 0) hqj
      (by rw [List.length_replicate]; exact hperm.2.2.1 _ hqj)]
    rw [permuteCoords_getD p q c s.length hperm hclen _ hqj]

theorem permuteCoords_cancel (p q c1 c2 : List Nat) (dim : Nat) (hperm : IsPerm p q dim)
    (h1 : c1.length = dim) (h2 : c2.length = dim)
    (he : permuteCoords p c1 = permuteCoords p c2) : c1 = c2 := by
  apply getD_ext_nd 0
  · omega
  · intro j hj
    have hjd : j < dim := by omega
    have e1 := permuteCoords_getD p q c1 dim hperm h1 j hjd
    have e2 := permuteCoords_getD p q c2 dim hperm h2 j hjd
    rw [← e1, ← e2, he]

theorem transposeShape_length (s p : List Nat) : (transposeShape s p).length = s.length := by
  unfold transposeShape
  rw [foldl_setr_length]
  exact List.length_replicate _ _

theorem transposeShape_getD (s p q : List Nat) (hperm : IsPerm p q s.length)
    (i : Nat) (hi : i < s.length) :
    (transposeShape s p).getD (p.getD i 0) 0 = s.getD i 0 := by
  unfold transposeShape
  exact foldl_setr_getD (fun ax => p.getD ax 0) (fun ax => s.getD ax 0) s.length
    (List.replicate s.length 0) 0 (isPerm_inj hperm) i hi
    (by rw [List.length_replicate]; exact hperm.2.2.1 i hi)

theorem permuteCoords_valid (s p q c : List Nat) (hperm : IsPerm p q s.length)
    (hc : validIdx c s) : validIdx (permuteCoords p c) (transposeShape s p) := by
  have hclen : c.length = s.length := validIdx_length hc
  constructor
  · rw [permuteCoords_length, transposeShape_length, hclen]
  · intro j hj
    rw [transposeShape_length] at hj
    have hqj : q.getD j 0 < s.length := hperm.2.2.2.1 j hj
    have hpqj : p.getD (q.getD j 0) 0 = j := hperm.2.2.2.2.2 j hj
    rw [← hpqj, permuteCoords_getD p q c s.length hperm hclen _ hqj,
      transposeShape_getD s p q hperm _ hqj]
    exact hc.2 _ hqj

theorem prod_eq_range_getD (l : List Nat) :
    l.prod = ∏ i in Finset.range l.length, l.getD i 0 := by
  induction l with
  | nil => simp
  | cons x xs ih =>
    rw [List.prod_cons, ih, List.length_cons, Finset.prod_range_succ']
    simp only [List.getD_cons_succ, List.getD_cons_zero]
    ring

theorem transposeShape_prod (s p q : List Nat) (hperm : IsPerm p q s.length) :
    (transposeShape s p).prod = s.prod := by
  rw [prod_eq_range_getD, prod_eq_range_getD, transposeShape_length]
  symm
  apply Finset.prod_nbij' (fun i => p.getD i 0) (fun j => q.getD j 0)
  · intro a ha
    exact Finset.mem_range.mpr (hperm.2.2.1 a (Finset.mem_range.mp ha))
  · intro a ha
    exact Finset.mem_range.mpr (hperm.2.2.2.1 a (Finset.mem_range.mp ha))
  · intro a ha
    exact hperm.2.2.2.2.1 a (Finset.mem_range.mp ha)
  · intro a ha
    exact hperm.2.2.2.2.2 a (Finset.mem_range.mp ha)
  · intro a ha
    exact (transposeShape_getD s p q hperm a (Finset.mem_range.mp ha)).symm

theorem foldl_set_list_length {α : Type} (addr : Nat → Nat) (val : Nat → α) :
    ∀ (l : List Nat) (init : List α),
    (l.foldl (fun b i => b.set (addr i) (val i)) init).length = init.length := by
  intro l
  induction l with
  | nil => intro init; rfl
  | cons x xs ih =>
    intro init
    rw [List.foldl_cons, ih]
    exact List.length_set init _ _

theorem foldl_set_list_getD_ne {α : Type} (addr : Nat → Nat) (val : Nat → α) (a : Nat) (d : α) :
    ∀ (l : List Nat) (init : List α), (∀ j ∈ l, addr j ≠ a) →
    (l.foldl (fun b i => b.set (addr i) (val i)) init).getD a d = init.getD a d := by
  intro l
  induction l with
  | nil => intro init _; rfl
  | cons x xs ih =>
    intro init hne
    rw [List.foldl_cons, ih _ (fun j hj => hne j (List.mem_cons_of_mem x hj))]
    exact getD_set_ne_nd _ _ _ (hne x (List.mem_cons_self x xs))

theorem foldl_set_list_getD {α : Type} (addr : Nat → Nat) (val : Nat → α) (a i0 : Nat) (d : α) :
    ∀ (l : List Nat) (init : List α), i0 ∈ l → (∀ j ∈ l, addr j = a → j = i0) →
    addr i0 = a → a < init.length →
    (l.foldl (fun b i => b.set (addr i) (val i)) init).getD a d = val i0 := by
  intro l
  induction l with
  | nil => intro init hmem _ _ _; cases hmem
  | cons x xs ih =>
    intro init hmem huniq ha hlt
    rw [List.foldl_cons]
    by_cases hx : i0 ∈ xs
    · exact ih _ hx (fun j hj he => huniq j (List.mem_cons_of_mem x hj) he) ha
        (by rw [List.length_set]; exact hlt)
    · have hxi : x = i0 := by
        rcases List.mem_cons.mp hmem with he | hin
        · exact he.symm
        · exact absurd hin hx
      subst hxi
      rw [foldl_set_list_getD_ne addr val a d xs _ (fun j hj he => by
        have := huniq j (List.mem_cons_of_mem x hj) he
        rw [this] at hj
        exact hx hj)]
      rw [← ha]
      exact getD_set_self_nd _ _ _ _ (ha ▸ hlt)

/-- C8: `transpose_impl` on a canonically strided source produces a fresh,
densely packed array (a new storage block at the end of the heap, offset 0,
canonical strides) whose shape places the source extent of axis `i` at
destination axis `pattern[i]`, and whose element at the permuted
coordinates of any valid source tuple `c` equals the source element at
`c`.  The `transpose` entry point parses the Einstein pattern (for
`"ij->ji"` on rank 2 it derives `pattern = [1, 0]`) and delegates here. -/
theorem transposeLaw (h : Heap) (A : ndarr) (p q c : List Nat)
    (hperm : IsPerm p q A.shape_.length)
    (hstr : A.strides_ = strides_for_shape A.shape_)
    (hsz : A.size_ = size_for_shape A.shape_)
    (hblk : A.blk_ < h.length)
    (hc : validIdx c A.shape_) :
    (transpose_impl h A p).2.blk_ = h.length ∧
    (transpose_impl h A p).2.blk_ ≠ A.blk_ ∧
    (transpose_impl h A p).2.offset_ = 0 ∧
    (transpose_impl h A p).2.strides_ = strides_for_shape (transpose_impl h A p).2.shape_ ∧
    (∀ i, i < A.shape_.length →
      (transpose_impl h A p).2.shape_.getD (p.getD i 0) 0 = A.shape_.getD i 0) ∧
    readIdx (transpose_impl h A p).1 (transpose_impl h A p).2 (permuteCoords p c) =
      readIdx h A c := by
  refine ⟨rfl, by show h.length ≠ A.blk_; omega, rfl, rfl,
    fun i hi => transposeShape_getD A.shape_ p q hperm i hi, ?_⟩
  have hpcv : validIdx (permuteCoords p c) (transposeShape A.shape_ p) :=
    permuteCoords_valid A.shape_ p q c hperm hc
  have hts : ∀ (cj : List Nat), validIdx cj A.shape_ →
      transposeIndices A.shape_ p (dotProd cj (strides_for_shape A.shape_)) =
        permuteCoords p cj := by
    intro cj hcj
    rw [transposeIndices_scatter A.shape_ p cj hcj,
      scatter_eq_permuteCoords A.shape_ p q cj hperm hcj]
  unfold readIdx transpose_impl
  simp only [Nat.zero_add]
  rw [List.getD_append_right _ _ _ _ (Nat.le_refl _), Nat.sub_self]
  simp only [List.getD_cons_zero]
  rw [foldl_set_list_getD
    (fun i => dotProd (transposeIndices A.shape_ p i) (strides_for_shape (transposeShape A.shape_ p)))
    (fun i => (h.getD A.blk_ []).getD (A.offset_ + i) 0)
    (dotProd (permuteCoords p c) (strides_for_shape (transposeShape A.shape_ p)))
    (dotProd c (strides_for_shape A.shape_)) 0 (List.range A.size_)
    (List.replicate (size_for_shape (transposeShape A.shape_ p)) 0)
    (by
      rw [List.mem_range, hsz, size_for_shape_eq_prod]
      exact dot_lt_prod A.shape_ c hc)
    (by
      intro j hj heq
      rw [List.mem_range, hsz, size_for_shape_eq_prod] at hj
      obtain ⟨cj, hcj, hdotj⟩ := flatten_surj A.shape_ j hj
      rw [← hdotj] at heq ⊢
      have heq2 : dotProd (permuteCoords p cj) (strides_for_shape (transposeShape A.shape_ p)) =
          dotProd (permuteCoords p c) (strides_for_shape (transposeShape A.shape_ p)) := by
        rw [← hts cj hcj]
        exact heq
      have hpc : permuteCoords p cj = permuteCoords p c :=
        flatten_inj (transposeShape A.shape_ p) _ _
          (permuteCoords_valid A.shape_ p q cj hperm hcj) hpcv heq2
      rw [permuteCoords_cancel p q cj c A.shape_.length hperm
        (validIdx_length hcj) (validIdx_length hc) hpc]
    )
    (by
      show dotProd (transposeIndices A.shape_ p (dotProd c (strides_for_shape A.shape_)))
          (strides_for_shape (transposeShape A.shape_ p)) =
        dotProd (permuteCoords p c) (strides_for_shape (transposeShape A.shape_ p))
      rw [hts c hc])
    (by
      rw [List.length_replicate, size_for_shape_eq_prod]
      exact dot_lt_prod (transposeShape A.shape_ p) _ hpcv)]
  show (List.getD h A.blk_ []).getD (A.offset_ + dotProd c (strides_for_shape A.shape_)) 0 =
    (List.getD h A.blk_ []).getD (A.offset_ + dotProd c A.strides_) 0
  rw [hstr]

/-- Witness for C8: the `"ij->ji"` pattern (`pattern = [1, 0]`) on a 2x3
array backed by block 0 of a concrete heap, at source coordinates (1,2). -/
theorem transposeLaw_witness :
    (transpose_impl [[1, 2, 3, 4, 5, 6]]
        ⟨[2, 3], strides_for_shape [2, 3], size_for_shape [2, 3], 0, 0⟩ [1, 0]).2.blk_ = 1 ∧
    readIdx (transpose_impl [[1, 2, 3, 4, 5, 6]]
        ⟨[2, 3], strides_for_shape [2, 3], size_for_shape [2, 3], 0, 0⟩ [1, 0]).1
      (transpose_impl [[1, 2, 3, 4, 5, 6]]
        ⟨[2, 3], strides_for_shape [2, 3], size_for_shape [2, 3], 0, 0⟩ [1, 0]).2
      (permuteCoords [1, 0] [1, 2]) =
    readIdx [[1, 2, 3, 4, 5, 6]]
      ⟨[2, 3], strides_for_shape [2, 3], size_for_shape [2, 3], 0, 0⟩ [1, 2] := by
  have t := transposeLaw [[1, 2, 3, 4, 5, 6]]
    ⟨[2, 3], strides_for_shape [2, 3], size_for_shape [2, 3], 0, 0⟩ [1, 0] [1, 0] [1, 2]
    (by decide) rfl rfl (by decide) (by decide)
  exact ⟨t.1, t.2.2.2.2.2⟩

end GreenNdarray
